import Mathlib

/-!
Verification of the two-tone decoder engine
(`backend/services/tone_detector.py` and its caller
`backend/api/audio_upload.py`).

The Python code is shallowly embedded: float samples and Goertzel
magnitudes become real numbers, candidate frequencies and tolerances
(exact decimals in the program) become rationals, indices become
naturals.  Python `int()` on a nonnegative value is the floor, modelled
by natural division or by an explicit truncation on the reals.
-/

/-- Default `frequency_tolerance_hz` from `backend/core/config.py`
(`Settings.frequency_tolerance_hz = 2.0`). -/
def frequency_tolerance_hz : ℚ := 2

/-- Embeds `ToneDetector.__init__`:
`self.tolerance_hz = tolerance_hz or settings.frequency_tolerance_hz`.
The Python `or` takes the default whenever the argument is falsy, i.e.
`None` (here `none`) or the float `0.0` (here the rational `0`). -/
def tone_detector_tolerance : Option ℚ → ℚ
  | none => frequency_tolerance_hz
  | some t => if t = 0 then frequency_tolerance_hz else t

/-- Catalog row `(id, label, tone1_hz, tone2_hz)` as consumed by
`find_matching_tone`. -/
structure ToneEntry where
  id : ℤ
  label : String
  tone1_hz : ℚ
  tone2_hz : ℚ
deriving DecidableEq

/-- Both detected frequencies are within `tol` of the entry, boundary
included; this is the per-entry test made by `find_matching_tone`. -/
def tone_within (tol d1 d2 : ℚ) (e : ToneEntry) : Prop :=
  |d1 - e.tone1_hz| ≤ tol ∧ |d2 - e.tone2_hz| ≤ tol

instance (tol d1 d2 : ℚ) (e : ToneEntry) : Decidable (tone_within tol d1 d2 e) := by
  unfold tone_within; infer_instance

/-- Embeds `ToneDetector.find_matching_tone`: scan the entries in order
and return the first whose two stored frequencies are both within
`tolerance_hz` of the detected pair (`<=`, boundary inclusive);
`None` when the loop falls through. -/
def find_matching_tone (tol d1 d2 : ℚ) : List ToneEntry → Option ToneEntry
  | [] => none
  | e :: rest =>
    if |d1 - e.tone1_hz| ≤ tol ∧ |d2 - e.tone2_hz| ≤ tol then some e
    else find_matching_tone tol d1 d2 rest

/-- Embeds `np.arange(start, stop, step)` (as used with positive step):
the values `start + i * step` for `0 ≤ i < ⌈(stop - start) / step⌉`. -/
def arange (start stop step : ℚ) : List ℚ :=
  (List.range (Int.toNat ⌈(stop - start) / step⌉)).map (fun i : ℕ => start + (i : ℚ) * step)

/-- Python `int(x)`: truncation toward zero. -/
noncomputable def py_int (x : ℝ) : ℤ :=
  if 0 ≤ x then ⌊x⌋ else ⌈x⌉

/-- The Goertzel recurrence of `ToneDetector.goertzel`:
`q0 = coeff*q1 - q2 + x; q2 = q1; q1 = q0` over all samples, starting
from `q1 = q2 = 0`; the state is the pair `(q1, q2)`. -/
noncomputable def goertzel_loop (coeff : ℝ) (samples : List ℝ) : ℝ × ℝ :=
  samples.foldl (fun q x => (coeff * q.1 - q.2 + x, q.1)) (0, 0)

/-- Embeds `ToneDetector.goertzel`:
`k = int(0.5 + n * target_freq / sample_rate)`, `omega = 2*pi*k/n`,
run the recurrence, then
`sqrt(real*real + imag*imag) / n` with `real = q1 - q2*cos(omega)` and
`imag = q2*sin(omega)`. -/
noncomputable def goertzel (samples : List ℝ) (sample_rate : ℕ) (target_freq : ℝ) : ℝ :=
  let n : ℕ := samples.length
  let k : ℤ := py_int (0.5 + (n * target_freq / sample_rate))
  let omega : ℝ := (2 * Real.pi * k) / n
  let cos_omega := Real.cos omega
  let sin_omega := Real.sin omega
  let coeff := 2 * cos_omega
  let q := goertzel_loop coeff samples
  let re := q.1 - q.2 * cos_omega
  let im := q.2 * sin_omega
  Real.sqrt (re * re + im * im) / n

/-- The reference Goertzel magnitude written from the specification
pseudocode: `k = round(N * f / sr)`, `omega = 2*pi*k/N`, the same
recurrence, `magnitude = sqrt(real^2 + imag^2) / N`. -/
noncomputable def goertzel_reference (samples : List ℝ) (sample_rate : ℕ) (target_freq : ℝ) : ℝ :=
  let n : ℕ := samples.length
  let k : ℤ := round ((n : ℝ) * target_freq / sample_rate)
  let omega : ℝ := (2 * Real.pi * k) / n
  let cos_omega := Real.cos omega
  let sin_omega := Real.sin omega
  let coeff := 2 * cos_omega
  let q := goertzel_loop coeff samples
  let re := q.1 - q.2 * cos_omega
  let im := q.2 * sin_omega
  Real.sqrt (re ^ 2 + im ^ 2) / n

/-- Inner loop of `np.argmax`: carry the best `(index, value)` pair,
replacing it only on a strictly larger value, so the first occurrence
of the maximum wins. -/
noncomputable def argmax_aux : List ℝ → ℕ → ℕ × ℝ → ℕ × ℝ
  | [], _, best => best
  | x :: xs, i, best =>
    if best.2 < x then argmax_aux xs (i + 1) (i, x)
    else argmax_aux xs (i + 1) best

/-- Embeds `np.argmax`: index of the first occurrence of the maximum
(`0` on the empty list, where NumPy raises instead). -/
noncomputable def argmaxIdx : List ℝ → ℕ
  | [] => 0
  | x :: xs => (argmax_aux xs 1 (0, x)).1

/-- Embeds `np.mean`: sum divided by length. -/
noncomputable def listMean (l : List ℝ) : ℝ := l.sum / l.length

/-- Embeds `np.std` (population): square root of the mean squared
deviation from the mean. -/
noncomputable def listStd (l : List ℝ) : ℝ :=
  Real.sqrt (listMean (l.map (fun x => (x - listMean l) ^ 2)))

/-- The magnitude at the argmax index (`magnitudes[peak_idx]`). -/
noncomputable def peak_magnitude (mags : List ℝ) : ℝ :=
  mags.getD (argmaxIdx mags) 0

/-- The scanned magnitudes of `detect_tone_in_window`: one Goertzel
magnitude per candidate frequency of `np.arange(min_freq, max_freq,
resolution_hz)`. -/
noncomputable def scan_magnitudes (samples : List ℝ) (sr : ℕ) (min_freq max_freq resolution : ℚ) :
    List ℝ :=
  (arange min_freq max_freq resolution).map (fun f : ℚ => goertzel samples sr (f : ℝ))

/-- The confidence computed by `detect_tone_in_window`:
`min(1.0, (peak_magnitude - mean_magnitude) / (5 * std_magnitude))`
when the standard deviation is positive, else `0.0`. -/
noncomputable def detect_confidence (mags : List ℝ) : ℝ :=
  if 0 < listStd mags then
    min 1 ((peak_magnitude mags - listMean mags) / (5 * listStd mags))
  else 0

/-- The frequency grid scanned by `_refine_frequency`:
`np.arange(center_freq - step * 2, center_freq + step * 2, step / 4)`. -/
def refine_grid (center step : ℚ) : List ℚ :=
  arange (center - step * 2) (center + step * 2) (step / 4)

/-- Scan a frequency grid with Goertzel and return the grid frequency at
the argmax of the magnitudes (the shared shape of the coarse scan and of
`_refine_frequency`). -/
noncomputable def peak_scan (samples : List ℝ) (sr : ℕ) (grid : List ℚ) : ℚ :=
  grid.getD (argmaxIdx (grid.map (fun f : ℚ => goertzel samples sr (f : ℝ)))) 0

/-- Embeds `ToneDetector._refine_frequency`: rescan `refine_grid` around
the peak and return the new peak frequency. -/
noncomputable def refine_frequency (samples : List ℝ) (sr : ℕ) (center step : ℚ) : ℚ :=
  peak_scan samples sr (refine_grid center step)

/-- The band the claim text ascribes to the refinement step: centered on
the peak, spanning plus and minus `2 * resolution`, stepped by
`resolution / 4`.  Written from the specification words, to be compared
with `refine_grid` as the source defines it. -/
def claim_refine_band (center resolution : ℚ) : List ℚ :=
  arange (center - 2 * resolution) (center + 2 * resolution) (resolution / 4)

/-- Embeds `ToneDetector.detect_tone_in_window`: Goertzel scan of the
candidate grid, peak pick by `np.argmax`, prominence confidence, and the
refinement branch guarded by
`peak_idx > 0 and peak_idx < len(magnitudes) - 1`, which calls
`_refine_frequency(samples, sample_rate, peak_freq, resolution_hz / 2)`. -/
noncomputable def detect_tone_in_window (samples : List ℝ) (sr : ℕ)
    (min_freq max_freq resolution : ℚ) : ℚ × ℝ :=
  let tf := arange min_freq max_freq resolution
  let mags := scan_magnitudes samples sr min_freq max_freq resolution
  let pidx := argmaxIdx mags
  let pf := tf.getD pidx 0
  let conf := detect_confidence mags
  if 0 < pidx ∧ pidx < mags.length - 1 then
    (refine_frequency samples sr pf (resolution / 2), conf)
  else (pf, conf)

/-- Embeds `np.max(np.abs(samples))`, folded from `0` (for nonempty
input this is the maximum absolute amplitude, since all entries are
nonnegative; NumPy raises on empty input). -/
noncomputable def maxAbs (l : List ℝ) : ℝ :=
  (l.map (fun x => |x|)).foldl max 0

/-- Embeds `samples = samples / np.max(np.abs(samples))` from
`detect_two_tone_sequence`: the division is unconditional, there is no
guard on a zero maximum. -/
noncomputable def normalize_samples (samples : List ℝ) : List ℝ :=
  samples.map (fun x => x / maxAbs samples)

/-- Embeds Python `range(0, stop, step)` for a natural `stop` (a
negative Python stop is already clamped to `0` by natural subtraction at
the call site) and positive `step`. -/
def py_range0 (stop step : ℕ) : List ℕ :=
  (List.range ((stop + step - 1) / step)).map (fun i => i * step)

/-- Embeds the energy envelope of `detect_two_tone_sequence`:
`np.sum(samples[i:i+frame_length]**2)` for
`i in range(0, len(samples) - frame_length, frame_length)`. -/
noncomputable def energy_frames (s : List ℝ) (frame_length : ℕ) : List ℝ :=
  (py_range0 (s.length - frame_length) frame_length).map
    (fun i => (((s.drop i).take frame_length).map (fun x => x ^ 2)).sum)

/-- Zero-padded indexing used by the median filter: out-of-range indices
(negative or past the end) read as `0`. -/
noncomputable def padGet (l : List ℝ) (j : ℤ) : ℝ :=
  if 0 ≤ j then l.getD j.toNat 0 else 0

/-- Insertion into a sorted list, the auxiliary step of sorting a median
window. -/
noncomputable def insert_sorted (x : ℝ) : List ℝ → List ℝ
  | [] => [x]
  | y :: ys => if x ≤ y then x :: y :: ys else y :: insert_sorted x ys

/-- Insertion sort of a window (only the multiset of elements and the
middle element matter for the median). -/
noncomputable def sort_list (l : List ℝ) : List ℝ :=
  l.foldr insert_sorted []

/-- Median of a window: middle element of the sorted window. -/
noncomputable def median_of (w : List ℝ) : ℝ :=
  (sort_list w).getD (w.length / 2) 0

/-- Embeds `scipy.signal.medfilt(energy, kernel_size=5)`: each output is
the median of the five zero-padded neighbours centered at the index. -/
noncomputable def medfilt5 (l : List ℝ) : List ℝ :=
  (List.range l.length).map (fun i =>
    median_of [padGet l ((i : ℤ) - 2), padGet l ((i : ℤ) - 1), padGet l (i : ℤ),
      padGet l ((i : ℤ) + 1), padGet l ((i : ℤ) + 2)])

/-- Embeds the activity mask of `detect_two_tone_sequence` over already
normalized samples: smoothed 10 ms frame energies compared strictly
against `mean + 2 * std`. -/
noncomputable def tone_active_mask (s : List ℝ) (sr : ℕ) : List Bool :=
  let energy := energy_frames s (sr / 100)
  let smooth := medfilt5 energy
  let thr := listMean smooth + 2 * listStd smooth
  smooth.map (fun e => decide (thr < e))

/-- One iteration of the segment loop of
`ToneDetector._find_tone_segments`, on the state
`(i, in_tone, start_idx, segments)`: entering a run records the start,
leaving a run emits `(start_idx * frame_length, i * frame_length)` when
the run lasted at least `min_frames` frames. -/
def seg_step (min_frames frame_length : ℕ) :
    ℕ × Bool × ℕ × List (ℕ × ℕ) → Bool → ℕ × Bool × ℕ × List (ℕ × ℕ)
  | (i, in_tone, start_idx, segs), active =>
    if active && !in_tone then (i + 1, true, i, segs)
    else if !active && in_tone then
      (i + 1, false, start_idx,
        if min_frames ≤ i - start_idx then segs ++ [(start_idx * frame_length, i * frame_length)]
        else segs)
    else (i + 1, in_tone, start_idx, segs)

/-- Embeds `ToneDetector._find_tone_segments`:
`min_tone_frames = int(0.1 * sample_rate / frame_length)` (truncation,
i.e. `sample_rate / (10 * frame_length)` in natural division), the loop
over the mask, and the final emission of a run still open at the end of
the signal. -/
def find_tone_segments (tone_active : List Bool) (frame_length sample_rate : ℕ) :
    List (ℕ × ℕ) :=
  let min_frames := sample_rate / (10 * frame_length)
  match tone_active.foldl (seg_step min_frames frame_length) (0, false, 0, []) with
  | (_, in_tone, start_idx, segs) =>
    if in_tone && decide (min_frames ≤ tone_active.length - start_idx) then
      segs ++ [(start_idx * frame_length, tone_active.length * frame_length)]
    else segs

/-- Embeds `ToneDetector.detect_two_tone_sequence` after a successful
decode: unconditional normalization, energy segmentation, the
fewer-than-two-segments early return `(None, None, 0.0)`, and otherwise
frequency detection on the first two segment slices with the averaged
confidence.  The source has no error path after loading: a silent clip
flows through the division by the zero maximum (NaN samples in NumPy,
every threshold comparison false) and reaches the same early return. -/
noncomputable def detect_two_tone_sequence (samples : List ℝ) (sr : ℕ) :
    Option ℚ × Option ℚ × ℝ :=
  let s := normalize_samples samples
  let fl := sr / 100
  let segs := find_tone_segments (tone_active_mask s sr) fl sr
  match segs with
  | seg1 :: seg2 :: _ =>
    let t1 := (s.drop seg1.1).take (seg1.2 - seg1.1)
    let t2 := (s.drop seg2.1).take (seg2.2 - seg2.1)
    let r1 := detect_tone_in_window t1 sr 200 3000 (1 / 2)
    let r2 := detect_tone_in_window t2 sr 200 3000 (1 / 2)
    (some r1.1, some r2.1, (r1.2 + r2.2) / 2)
  | _ => (none, none, 0)

/-- Embeds the matching section of `decode_audio`
(`backend/api/audio_upload.py`): when either detected frequency is
`None` the endpoint returns the no-detection result without touching the
catalog; otherwise it calls `find_matching_tone` on the fetched
entries. -/
noncomputable def decode_matched_entry (tol : ℚ) (samples : List ℝ) (sr : ℕ)
    (entries : List ToneEntry) : Option ToneEntry :=
  match detect_two_tone_sequence samples sr with
  | (some f1, some f2, _) => find_matching_tone tol f1 f2 entries
  | _ => none

/-- Loop invariant of the segment scan, on the state
`(i, in_tone, start_idx, segs)`: while inside a run the recorded start
precedes the position and every emitted end stays at or before the
start boundary; every emitted segment spans at least `min_frames`
frames, spans at least one frame, and ends at or before the current
position; emitted segments are pairwise ordered with strictly
increasing starts and disjoint half-open ranges. -/
def seg_inv (min_frames frame_length : ℕ) (s : ℕ × Bool × ℕ × List (ℕ × ℕ)) : Prop :=
  (s.2.1 = true → s.2.2.1 < s.1 ∧ ∀ p ∈ s.2.2.2, p.2 ≤ s.2.2.1 * frame_length)
  ∧ (∀ p ∈ s.2.2.2,
      p.1 + min_frames * frame_length ≤ p.2
      ∧ p.1 + frame_length ≤ p.2
      ∧ p.2 ≤ s.1 * frame_length)
  ∧ s.2.2.2.Pairwise (fun p q => p.1 < q.1 ∧ p.2 ≤ q.1)

/-! ## Theorems -/

/-- C9: constructing a `ToneDetector` with `tolerance_hz = 0.0` stores the
configured default tolerance `2.0` rather than `0.0`, because the
constructor treats every falsy argument (`0.0` or `None`) as unset; only
a nonzero tolerance argument is actually used. -/
theorem tone_detector_tolerance_falsy :
    tone_detector_tolerance (some 0) = 2
    ∧ tone_detector_tolerance none = 2
    ∧ ∀ t : ℚ, t ≠ 0 → tone_detector_tolerance (some t) = t := by
  refine ⟨rfl, rfl, fun t ht => ?_⟩
  simp [tone_detector_tolerance, ht]

/-- Witness for C9 at the concrete nonzero tolerance `3`. -/
theorem tone_detector_tolerance_falsy_witness :
    tone_detector_tolerance (some 3) = 3 :=
  tone_detector_tolerance_falsy.2.2 3 (by decide)

/-- C2: `find_matching_tone` returns `none` exactly when no entry has
both stored frequencies within the tolerance of the detected pair
(boundary inclusive), and whenever it returns an entry that entry
satisfies both conditions and is the first such entry in the supplied
order. -/
theorem find_matching_tone_first_match (tol d1 d2 : ℚ) (l : List ToneEntry) :
    (find_matching_tone tol d1 d2 l = none ↔ ∀ e ∈ l, ¬ tone_within tol d1 d2 e)
    ∧ ∀ e, find_matching_tone tol d1 d2 l = some e →
        tone_within tol d1 d2 e
        ∧ ∃ pre suf, l = pre ++ e :: suf ∧ ∀ x ∈ pre, ¬ tone_within tol d1 d2 x := by
  induction l with
  | nil => exact ⟨by simp [find_matching_tone], by simp [find_matching_tone]⟩
  | cons a rest ih =>
    by_cases h : tone_within tol d1 d2 a
    · refine ⟨⟨fun hnone => absurd hnone ?_, fun hall => absurd h (hall a (by simp))⟩,
        fun e he => ?_⟩
      · simp [find_matching_tone, h.1, h.2]
      · have : some a = some e := by
          simpa [find_matching_tone, h.1, h.2] using he
        obtain rfl : a = e := by injection this
        exact ⟨h, [], rest, by simp⟩
    · have hrw : find_matching_tone tol d1 d2 (a :: rest) = find_matching_tone tol d1 d2 rest := by
        have : ¬ (|d1 - a.tone1_hz| ≤ tol ∧ |d2 - a.tone2_hz| ≤ tol) := h
        simp [find_matching_tone, this]
      refine ⟨?_, fun e he => ?_⟩
      · rw [hrw, ih.1]
        constructor
        · intro hall e he
          rcases List.mem_cons.mp he with rfl | h2
          · exact h
          · exact hall e h2
        · intro hall e he
          exact hall e (by simp [he])
      · rw [hrw] at he
        obtain ⟨hw, pre, suf, hl, hpre⟩ := ih.2 e he
        refine ⟨hw, a :: pre, suf, by simp [hl], ?_⟩
        intro x hx
        rcases List.mem_cons.mp hx with rfl | h2
        · exact h
        · exact hpre x h2

/-- Witness for C2: a concrete catalog where the second entry also
matches but the first matching entry is returned. -/
theorem find_matching_tone_first_match_witness :
    tone_within 2 100 200 ⟨1, "A", 100, 200⟩
    ∧ ∃ pre suf,
        [(⟨1, "A", 100, 200⟩ : ToneEntry), ⟨2, "B", 100, 200⟩] = pre ++ (⟨1, "A", 100, 200⟩ : ToneEntry) :: suf
        ∧ ∀ x ∈ pre, ¬ tone_within 2 100 200 x :=
  (find_matching_tone_first_match 2 100 200
    [⟨1, "A", 100, 200⟩, ⟨2, "B", 100, 200⟩]).2 ⟨1, "A", 100, 200⟩
    (by simp [find_matching_tone, sub_self, abs_zero, zero_le_two])

/-- Python truncation agrees with the floor on nonnegative arguments. -/
theorem py_int_of_nonneg {x : ℝ} (hx : 0 ≤ x) : py_int x = ⌊x⌋ := by
  simp [py_int, hx]

/-- C7: for every sample list, sample rate and nonnegative target
frequency, `goertzel` returns exactly the reference magnitude of the
specification pseudocode: `k = int(0.5 + n*f/sr)` is the rounding
`round(n*f/sr)` there, and the rest of the computation is identical. -/
theorem goertzel_eq_reference (samples : List ℝ) (sr : ℕ) (f : ℝ) (hf : 0 ≤ f) :
    goertzel samples sr f = goertzel_reference samples sr f := by
  have hq : (0 : ℝ) ≤ (samples.length : ℝ) * f / (sr : ℝ) := by positivity
  have hk : py_int (0.5 + (samples.length : ℝ) * f / (sr : ℝ))
      = round ((samples.length : ℝ) * f / (sr : ℝ)) := by
    rw [py_int_of_nonneg (by linarith), round_eq]
    norm_num [add_comm]
  simp only [goertzel, goertzel_reference]
  rw [hk]
  ring_nf

/-- Witness for C7 at a concrete sample list and frequency. -/
theorem goertzel_eq_reference_witness :
    goertzel [1] 1 0 = goertzel_reference [1] 1 0 :=
  goertzel_eq_reference [1] 1 0 le_rfl

/-- Length of an `arange` grid. -/
theorem arange_length (a b s : ℚ) : (arange a b s).length = (⌈(b - a) / s⌉).toNat := by
  rw [arange, List.length_map, List.length_range]

/-- Entry `i` of an `arange` grid is `start + i * step`. -/
theorem arange_getD {a b s : ℚ} {i : ℕ} (h : i < (arange a b s).length) :
    (arange a b s).getD i 0 = a + i * s := by
  rw [List.getD_eq_getElem _ _ h]
  simp only [arange, List.getElem_map, List.getElem_range]

/-- Every index of an `arange` grid with positive step stays strictly
below the stop value. -/
theorem arange_lt_stop {a b s : ℚ} (hs : 0 < s) {i : ℕ} (h : i < (arange a b s).length) :
    a + i * s < b := by
  rw [arange_length] at h
  have h1 : (i : ℤ) < ⌈(b - a) / s⌉ := Int.lt_toNat.mp h
  have h2 : (i : ℚ) < (b - a) / s := by
    have hc := Int.ceil_lt_add_one ((b - a) / s)
    have h3 : ((i : ℤ) : ℚ) + 1 ≤ (⌈(b - a) / s⌉ : ℚ) := by exact_mod_cast h1
    push_cast at h3
    linarith
  have h4 : (i : ℚ) * s < ((b - a) / s) * s := by
    exact mul_lt_mul_of_pos_right h2 hs
  rw [div_mul_cancel₀ _ (ne_of_gt hs)] at h4
  linarith

/-- A grid between distinct bounds with positive step is nonempty. -/
theorem arange_ne_nil {a b s : ℚ} (hab : a < b) (hs : 0 < s) : arange a b s ≠ [] := by
  have hpos : 0 < (⌈(b - a) / s⌉).toNat := by
    have : (0 : ℤ) < ⌈(b - a) / s⌉ := Int.ceil_pos.mpr (div_pos (sub_pos.mpr hab) hs)
    omega
  intro hnil
  have := congrArg List.length hnil
  rw [arange_length] at this
  simp at this
  omega

/-- The running best of `argmax_aux` never decreases and dominates every
scanned element. -/
theorem argmax_aux_dominates (xs : List ℝ) : ∀ i b,
    b.2 ≤ (argmax_aux xs i b).2 ∧ ∀ x ∈ xs, x ≤ (argmax_aux xs i b).2 := by
  induction xs with
  | nil => intro i b; exact ⟨le_rfl, by simp⟩
  | cons x xs ih =>
    intro i b
    by_cases h : b.2 < x
    · have hx := ih (i + 1) (i, x)
      constructor
      · simp only [argmax_aux, if_pos h]
        exact le_of_lt (lt_of_lt_of_le h hx.1)
      · intro y hy
        simp only [argmax_aux, if_pos h]
        rcases List.mem_cons.mp hy with rfl | h2
        · exact hx.1
        · exact hx.2 y h2
    · have hx := ih (i + 1) b
      constructor
      · simp only [argmax_aux, if_neg h]
        exact hx.1
      · intro y hy
        simp only [argmax_aux, if_neg h]
        rcases List.mem_cons.mp hy with rfl | h2
        · exact le_trans (le_of_not_lt h) hx.1
        · exact hx.2 y h2

/-- The best pair carried by `argmax_aux` stays a valid index paired with
the list value at that index, provided the remaining input is the suffix
of the list from the current position. -/
theorem argmax_aux_index (l : List ℝ) : ∀ xs i b, xs = l.drop i →
    b.1 < l.length → l.getD b.1 0 = b.2 →
    (argmax_aux xs i b).1 < l.length
    ∧ l.getD (argmax_aux xs i b).1 0 = (argmax_aux xs i b).2 := by
  intro xs
  induction xs with
  | nil => intro i b _ hb1 hb2; exact ⟨hb1, hb2⟩
  | cons x xs ih =>
    intro i b hdrop hb1 hb2
    have hi : i < l.length := by
      by_contra hle
      rw [List.drop_eq_nil_of_le (le_of_not_lt hle)] at hdrop
      exact List.cons_ne_nil x xs hdrop
    have hcons := List.drop_eq_getElem_cons hi
    rw [← hdrop] at hcons
    injection hcons with h1 htail0
    have hx : l.getD i 0 = x := by
      rw [List.getD_eq_getElem _ _ hi, ← h1]
    have htail : xs = l.drop (i + 1) := htail0
    by_cases h : b.2 < x
    · have := ih (i + 1) (i, x) htail hi hx
      simpa [argmax_aux, h] using this
    · have := ih (i + 1) b htail hb1 hb2
      simpa [argmax_aux, h] using this

/-- The argmax index of a nonempty list is a valid index. -/
theorem argmaxIdx_lt_length {l : List ℝ} (h : l ≠ []) : argmaxIdx l < l.length := by
  cases l with
  | nil => exact absurd rfl h
  | cons x xs =>
    have := argmax_aux_index (x :: xs) xs 1 (0, x) (by simp) (by simp) (by simp)
    simpa [argmaxIdx] using this.1

/-- The value at the argmax index dominates every list element. -/
theorem peak_magnitude_is_max (l : List ℝ) : ∀ x ∈ l, x ≤ peak_magnitude l := by
  cases l with
  | nil => simp
  | cons x xs =>
    have hidx := argmax_aux_index (x :: xs) xs 1 (0, x) (by simp) (by simp) (by simp)
    have hdom := argmax_aux_dominates xs 1 (0, x)
    intro y hy
    have hpk : peak_magnitude (x :: xs) = (argmax_aux xs 1 (0, x)).2 := by
      simp only [peak_magnitude, argmaxIdx]
      exact hidx.2
    rw [hpk]
    rcases List.mem_cons.mp hy with rfl | h2
    · exact hdom.1
    · exact hdom.2 y h2

/-- The mean of a list never exceeds the value at the argmax index. -/
theorem listMean_le_peak (l : List ℝ) : listMean l ≤ peak_magnitude l := by
  cases l with
  | nil => simp [listMean, peak_magnitude, argmaxIdx]
  | cons x xs =>
    have hsum : (x :: xs).sum ≤ (x :: xs).length • peak_magnitude (x :: xs) :=
      List.sum_le_card_nsmul _ _ (peak_magnitude_is_max (x :: xs))
    have hlen : (0 : ℝ) < ((x :: xs).length : ℝ) := by
      exact_mod_cast Nat.succ_pos xs.length
    rw [listMean, div_le_iff₀ hlen]
    calc (x :: xs).sum ≤ (x :: xs).length • peak_magnitude (x :: xs) := hsum
      _ = peak_magnitude (x :: xs) * ((x :: xs).length : ℝ) := by
          rw [nsmul_eq_mul]; ring

/-- Standard deviations are square roots, hence nonnegative. -/
theorem listStd_nonneg (l : List ℝ) : 0 ≤ listStd l := Real.sqrt_nonneg _

/-- Goertzel magnitude of the empty sample list is `0` (the final
division is by the zero length). -/
theorem goertzel_nil (sr : ℕ) (f : ℝ) : goertzel [] sr f = 0 := by
  simp [goertzel, goertzel_loop]

/-- The mean of an all-zero list is `0` (also for the empty list, where
the embedded division by the zero length yields `0`). -/
theorem listMean_all_zero {l : List ℝ} (h : ∀ x ∈ l, x = 0) : listMean l = 0 := by
  rw [listMean, List.sum_eq_zero h, zero_div]

/-- The standard deviation of an all-zero list is `0`. -/
theorem listStd_all_zero {l : List ℝ} (h : ∀ x ∈ l, x = 0) : listStd l = 0 := by
  have hm := listMean_all_zero h
  have hdev : ∀ y ∈ l.map (fun x => (x - listMean l) ^ 2), y = 0 := by
    intro y hy
    obtain ⟨x, hx, rfl⟩ := List.mem_map.mp hy
    rw [h x hx, hm]
    ring
  rw [listStd, listMean_all_zero hdev, Real.sqrt_zero]

/-- Every scanned magnitude over an empty sample window is `0`. -/
theorem scan_magnitudes_nil {sr : ℕ} {a b r : ℚ} :
    ∀ x ∈ scan_magnitudes [] sr a b r, x = 0 := by
  intro x hx
  obtain ⟨f, _, rfl⟩ := List.mem_map.mp hx
  exact goertzel_nil sr (f : ℝ)

/-- Both branches of `detect_tone_in_window` carry the confidence of the
coarse scan. -/
theorem detect_tone_in_window_conf (samples : List ℝ) (sr : ℕ) (a b r : ℚ) :
    (detect_tone_in_window samples sr a b r).2
      = detect_confidence (scan_magnitudes samples sr a b r) := by
  simp only [detect_tone_in_window]
  split <;> rfl

/-- C4: the confidence returned by `detect_tone_in_window` is the
branch-guarded prominence score: exactly `0` when the standard deviation
of the scanned magnitude distribution is zero (no division is
performed), otherwise `min 1 ((peak - mean) / (5 * std))`; the mean
never exceeds the peak magnitude, so the quotient is nonnegative and the
confidence always lies in `[0, 1]`. -/
theorem detect_confidence_clamped (samples : List ℝ) (sr : ℕ) (a b r : ℚ) :
    (detect_tone_in_window samples sr a b r).2
      = detect_confidence (scan_magnitudes samples sr a b r)
    ∧ (listStd (scan_magnitudes samples sr a b r) = 0 →
        (detect_tone_in_window samples sr a b r).2 = 0)
    ∧ (listStd (scan_magnitudes samples sr a b r) ≠ 0 →
        (detect_tone_in_window samples sr a b r).2
          = min 1 ((peak_magnitude (scan_magnitudes samples sr a b r)
              - listMean (scan_magnitudes samples sr a b r))
              / (5 * listStd (scan_magnitudes samples sr a b r))))
    ∧ listMean (scan_magnitudes samples sr a b r)
        ≤ peak_magnitude (scan_magnitudes samples sr a b r)
    ∧ 0 ≤ (detect_tone_in_window samples sr a b r).2
    ∧ (detect_tone_in_window samples sr a b r).2 ≤ 1 := by
  set m := scan_magnitudes samples sr a b r with hm
  have hconf := detect_tone_in_window_conf samples sr a b r
  have hmean := listMean_le_peak m
  have hstd := listStd_nonneg m
  refine ⟨hconf, ?_, ?_, hmean, ?_, ?_⟩
  · intro h0
    rw [hconf, detect_confidence, if_neg (by rw [h0]; exact lt_irrefl 0)]
  · intro hne
    have hpos : 0 < listStd m := lt_of_le_of_ne hstd (Ne.symm hne)
    rw [hconf, detect_confidence, if_pos hpos]
  · rw [hconf, detect_confidence]
    split
    · rename_i hpos
      refine le_min zero_le_one ?_
      exact div_nonneg (by linarith) (by linarith)
    · exact le_rfl
  · rw [hconf, detect_confidence]
    split
    · exact min_le_left _ _
    · exact zero_le_one

/-- Witness for C4 on a concrete flat (empty-window) scan, where the
standard deviation is zero and the confidence is exactly `0`. -/
theorem detect_confidence_clamped_witness :
    (detect_tone_in_window [] 100 200 201 (1 / 2)).2 = 0 :=
  (detect_confidence_clamped [] 100 200 201 (1 / 2)).2.1
    (listStd_all_zero scan_magnitudes_nil)

/-- The running best of `argmax_aux` is unchanged when no scanned
element exceeds it. -/
theorem argmax_aux_const {xs : List ℝ} {b : ℕ × ℝ} (h : ∀ x ∈ xs, x ≤ b.2) :
    ∀ i, argmax_aux xs i b = b := by
  induction xs with
  | nil => intro i; rfl
  | cons x xs ih =>
    intro i
    have hx : ¬ b.2 < x := not_lt.mpr (h x (by simp))
    simp only [argmax_aux, if_neg hx]
    exact ih (fun y hy => h y (by simp [hy])) (i + 1)

/-- The argmax of an all-zero list is the first index. -/
theorem argmaxIdx_all_zero {l : List ℝ} (h : ∀ x ∈ l, x = 0) : argmaxIdx l = 0 := by
  cases l with
  | nil => rfl
  | cons x xs =>
    have : ∀ y ∈ xs, y ≤ (0, x).2 := by
      intro y hy
      rw [h y (by simp [hy]), h x (by simp)]
    simp [argmaxIdx, argmax_aux_const this 1]

/-- C3 (amended): `detect_tone_in_window` refines exactly when the coarse
peak index is strictly interior, returning the rescanned peak frequency
with the coarse-scan confidence, and returns the unrefined peak at a
boundary; the rescan band passed `step = resolution / 2` is centered on
the peak and spans plus and minus one `resolution` with a step of
`resolution / 8` (not plus and minus `2 * resolution` with step
`resolution / 4`). -/
theorem detect_refinement_policy (samples : List ℝ) (sr : ℕ) (a b r : ℚ) :
    ((0 < argmaxIdx (scan_magnitudes samples sr a b r)
        ∧ argmaxIdx (scan_magnitudes samples sr a b r)
            < (scan_magnitudes samples sr a b r).length - 1) →
      detect_tone_in_window samples sr a b r
        = (refine_frequency samples sr
            ((arange a b r).getD (argmaxIdx (scan_magnitudes samples sr a b r)) 0) (r / 2),
           detect_confidence (scan_magnitudes samples sr a b r)))
    ∧ (¬ (0 < argmaxIdx (scan_magnitudes samples sr a b r)
        ∧ argmaxIdx (scan_magnitudes samples sr a b r)
            < (scan_magnitudes samples sr a b r).length - 1) →
      detect_tone_in_window samples sr a b r
        = ((arange a b r).getD (argmaxIdx (scan_magnitudes samples sr a b r)) 0,
           detect_confidence (scan_magnitudes samples sr a b r)))
    ∧ ∀ c q : ℚ, refine_frequency samples sr c (q / 2)
        = peak_scan samples sr (arange (c - q) (c + q) (q / 8)) := by
  refine ⟨?_, ?_, ?_⟩
  · intro h
    simp only [detect_tone_in_window]
    rw [if_pos h]
  · intro h
    simp only [detect_tone_in_window]
    rw [if_neg h]
  · intro c q
    have h1 : c - (q / 2) * 2 = c - q := by ring
    have h2 : c + (q / 2) * 2 = c + q := by ring
    have h3 : (q / 2) / 4 = q / 8 := by ring
    rw [refine_frequency, refine_grid, h1, h2, h3]

/-- Witness for C3 on an empty sample window over a two-candidate grid:
the flat magnitudes put the peak at the first index, a scan boundary, so
the unrefined first candidate `200` is returned with confidence `0`. -/
theorem detect_refinement_policy_witness :
    detect_tone_in_window [] 100 200 201 (1 / 2) = ((200 : ℚ), (0 : ℝ)) := by
  have hz : ∀ x ∈ scan_magnitudes [] 100 200 201 (1 / 2), x = 0 := scan_magnitudes_nil
  have hpi : argmaxIdx (scan_magnitudes [] 100 200 201 (1 / 2)) = 0 := argmaxIdx_all_zero hz
  have h := (detect_refinement_policy [] 100 200 201 (1 / 2)).2.1 (by rw [hpi]; simp)
  rw [h, hpi]
  have hlen : 0 < (arange 200 201 (1 / 2)).length := by
    rw [arange_length]
    norm_num
  have hf : (arange 200 201 (1 / 2)).getD 0 0 = 200 := by
    rw [arange_getD hlen]
    norm_num
  have hc : detect_confidence (scan_magnitudes [] 100 200 201 (1 / 2)) = 0 := by
    rw [detect_confidence, if_neg]
    rw [listStd_all_zero hz]
    exact lt_irrefl 0
  rw [hf, hc]

/-- Counterexample for C3: with the default resolution `1/2` the band
actually rescanned by the source (`step = resolution / 2`, spanning
`±2*step` at `step/4`) differs from the claimed band spanning
`±2*resolution` at `resolution/4`; already their first grid points
differ (`999.5` against `999`). -/
theorem refine_band_counterexample :
    refine_grid 1000 ((1 / 2) / 2) ≠ claim_refine_band 1000 (1 / 2) := by
  intro h
  have h0 := congrArg (fun l => l.getD 0 0) h
  have hl : (refine_grid 1000 ((1 / 2) / 2)).getD 0 0 = 1000 - ((1 / 2) / 2) * 2 := by
    rw [refine_grid]
    have hlen : 0 < (arange (1000 - ((1 / 2) / 2) * 2) (1000 + ((1 / 2) / 2) * 2)
        (((1 / 2) / 2) / 4)).length := by
      rw [arange_length]
      norm_num
    rw [arange_getD hlen]
    norm_num
  have hr : (claim_refine_band 1000 (1 / 2)).getD 0 0 = 1000 - 2 * (1 / 2) := by
    rw [claim_refine_band]
    have hlen : 0 < (arange (1000 - 2 * (1 / 2)) (1000 + 2 * (1 / 2)) ((1 / 2) / 4)).length := by
      rw [arange_length]
      norm_num
    rw [arange_getD hlen]
    norm_num
  simp only at h0
  rw [hl, hr] at h0
  norm_num at h0

/-- C10: for every sample window the frequency returned by
`detect_tone_in_window` lies within the requested scan range
`[min_freq, max_freq)`: an unrefined result is one of the coarse
candidates, and refinement, which runs only for a strictly interior
peak, scans only frequencies within one resolution step of that peak and
cannot leave the band. -/
theorem detect_freq_in_band (samples : List ℝ) (sr : ℕ) (a b r : ℚ)
    (hab : a < b) (hr : 0 < r) :
    a ≤ (detect_tone_in_window samples sr a b r).1
    ∧ (detect_tone_in_window samples sr a b r).1 < b := by
  have htf : arange a b r ≠ [] := arange_ne_nil hab hr
  have hmlen : (scan_magnitudes samples sr a b r).length = (arange a b r).length := by
    rw [scan_magnitudes, List.length_map]
  have hmne : scan_magnitudes samples sr a b r ≠ [] := by
    rw [scan_magnitudes]
    exact fun hnil => htf (List.map_eq_nil_iff.mp hnil)
  have hpi := argmaxIdx_lt_length hmne
  have hpi2 : argmaxIdx (scan_magnitudes samples sr a b r) < (arange a b r).length := by
    rw [← hmlen]; exact hpi
  set pi := argmaxIdx (scan_magnitudes samples sr a b r) with hpidef
  have hpf : (arange a b r).getD pi 0 = a + (pi : ℚ) * r := arange_getD hpi2
  by_cases hc : 0 < pi ∧ pi < (scan_magnitudes samples sr a b r).length - 1
  · simp only [detect_tone_in_window]
    rw [if_pos hc]
    dsimp only
    have hpi1 : (1 : ℚ) ≤ (pi : ℚ) := by exact_mod_cast hc.1
    -- the refinement grid
    have hg1 : a + (pi : ℚ) * r - (r / 2) * 2 < a + (pi : ℚ) * r + (r / 2) * 2 := by linarith
    have hg2 : 0 < (r / 2) / 4 := by linarith
    have hgne : arange (a + (pi : ℚ) * r - (r / 2) * 2) (a + (pi : ℚ) * r + (r / 2) * 2)
        ((r / 2) / 4) ≠ [] := arange_ne_nil hg1 hg2
    rw [refine_frequency, refine_grid, hpf, peak_scan]
    set grid := arange (a + (pi : ℚ) * r - (r / 2) * 2) (a + (pi : ℚ) * r + (r / 2) * 2)
      ((r / 2) / 4) with hgdef
    have hgm : (grid.map (fun f : ℚ => goertzel samples sr (f : ℝ))) ≠ [] := by
      exact fun hnil => hgne (List.map_eq_nil_iff.mp hnil)
    have hgl : argmaxIdx (grid.map (fun f : ℚ => goertzel samples sr (f : ℝ))) < grid.length := by
      have := argmaxIdx_lt_length hgm
      rwa [List.length_map] at this
    set gi := argmaxIdx (grid.map (fun f : ℚ => goertzel samples sr (f : ℝ))) with hgidef
    have hgv : grid.getD gi 0 = (a + (pi : ℚ) * r - (r / 2) * 2) + (gi : ℚ) * ((r / 2) / 4) :=
      arange_getD hgl
    have hup : (a + (pi : ℚ) * r - (r / 2) * 2) + (gi : ℚ) * ((r / 2) / 4)
        < a + (pi : ℚ) * r + (r / 2) * 2 := arange_lt_stop hg2 hgl
    have hnext : pi + 1 < (arange a b r).length := by
      rw [← hmlen]
      omega
    have hstop : a + ((pi + 1 : ℕ) : ℚ) * r < b := arange_lt_stop hr hnext
    have hstop2 : a + (pi : ℚ) * r + (r / 2) * 2 = a + ((pi + 1 : ℕ) : ℚ) * r := by
      push_cast
      ring
    constructor
    · rw [hgv]
      have : 0 ≤ (gi : ℚ) * ((r / 2) / 4) := by positivity
      nlinarith
    · rw [hgv]
      linarith
  · simp only [detect_tone_in_window]
    rw [if_neg hc]
    dsimp only
    constructor
    · rw [hpf]
      have : 0 ≤ (pi : ℚ) * r := by positivity
      linarith
    · rw [hpf]
      exact arange_lt_stop hr hpi2

/-- Witness for C10 on a concrete window and the default scan band. -/
theorem detect_freq_in_band_witness :
    (200 : ℚ) ≤ (detect_tone_in_window [] 100 200 3000 (1 / 2)).1
    ∧ (detect_tone_in_window [] 100 200 3000 (1 / 2)).1 < 3000 :=
  detect_freq_in_band [] 100 200 3000 (1 / 2) (by norm_num) (by norm_num)

/-- Length of the embedded Python range. -/
theorem py_range0_length (stop step : ℕ) :
    (py_range0 stop step).length = (stop + step - 1) / step := by
  rw [py_range0, List.length_map, List.length_range]

/-- Entry `i` of the embedded Python range is `i * step`. -/
theorem py_range0_getD {stop step i : ℕ} (h : i < (py_range0 stop step).length) :
    (py_range0 stop step).getD i 0 = i * step := by
  rw [List.getD_eq_getElem _ _ h]
  simp only [py_range0, List.getElem_map, List.getElem_range]

/-- The frame count `ceil((n - fl) / fl)` produced by
`range(0, n - fl, fl)` equals `(n - 1) / fl`. -/
theorem frame_count_eq (n fl : ℕ) (hfl : 0 < fl) :
    ((n - fl) + fl - 1) / fl = (n - 1) / fl := by
  rcases le_or_lt fl n with hle | hlt
  · congr 1
    omega
  · have h1 : n - fl = 0 := by omega
    rw [h1]
    rw [Nat.div_eq_of_lt (by omega), Nat.div_eq_of_lt (by omega)]

/-- When the frame length does not divide the signal length,
`(n - 1) / fl` is the number of complete frames `n / fl`. -/
theorem frame_count_not_dvd {n fl : ℕ} (hfl : 0 < fl) (hdvd : ¬ fl ∣ n) :
    (n - 1) / fl = n / fl := by
  have hmod : n / fl * fl + n % fl = n := Nat.div_add_mod' n fl
  have hr : n % fl ≠ 0 := fun h0 => hdvd (Nat.dvd_of_mod_eq_zero h0)
  have hrlt : n % fl < fl := Nat.mod_lt _ hfl
  have hsplit : n - 1 = (n % fl - 1) + (n / fl) * fl := by omega
  rw [hsplit, Nat.add_mul_div_right _ _ hfl, Nat.div_eq_of_lt (by omega), Nat.zero_add]

/-- C8 (amended): the energy envelope emits frames at starts
`0, fl, 2*fl, ...` strictly below `len - fl`, i.e. `(len - 1) / fl`
frames in total; when `fl` does not divide the signal length this is one
frame per complete frame (only the trailing partial frame dropped), and
each emitted value is the sum of squared samples of its frame. -/
theorem energy_frames_spec (s : List ℝ) (fl : ℕ) (hfl : 0 < fl) :
    (energy_frames s fl).length = (s.length - 1) / fl
    ∧ (¬ fl ∣ s.length → (energy_frames s fl).length = s.length / fl)
    ∧ ∀ i, i < (energy_frames s fl).length →
        (energy_frames s fl).getD i 0
          = (((s.drop (i * fl)).take fl).map (fun x => x ^ 2)).sum := by
  have hlen : (energy_frames s fl).length = ((s.length - fl) + fl - 1) / fl := by
    rw [energy_frames, List.length_map, py_range0_length]
  refine ⟨?_, ?_, ?_⟩
  · rw [hlen, frame_count_eq _ _ hfl]
  · intro hdvd
    rw [hlen, frame_count_eq _ _ hfl, frame_count_not_dvd hfl hdvd]
  · intro i hi
    rw [List.getD_eq_getElem _ _ hi]
    have hi2 : i < (py_range0 (s.length - fl) fl).length := by
      have := hi
      rwa [energy_frames, List.length_map] at this
    simp only [energy_frames, List.getElem_map]
    congr 1
    have := py_range0_getD hi2
    rw [List.getD_eq_getElem _ _ hi2] at this
    rw [this]

/-- Witness for C8 at a three-sample signal with two-sample frames: one
complete frame is emitted and the trailing partial frame is dropped. -/
theorem energy_frames_spec_witness :
    (energy_frames [(1 : ℝ), 1, 1] 2).length = 1 := by
  have h := (energy_frames_spec [(1 : ℝ), 1, 1] 2 (by decide)).2.1 (by decide)
  simpa using h

/-- Counterexample for C8: on a four-sample signal with two-sample
frames (an exact multiple, so there is no trailing partial frame) only
one energy value is emitted although the signal has two complete frames;
the final complete frame is dropped by `range(0, len - fl, fl)`. -/
theorem energy_frames_counterexample :
    (energy_frames (List.replicate 4 (1 : ℝ)) 2).length = 1
    ∧ (List.replicate 4 (1 : ℝ)).length / 2 = 2
    ∧ 2 ∣ (List.replicate 4 (1 : ℝ)).length := by
  refine ⟨?_, by simp, by simp; decide⟩
  simp [energy_frames, py_range0]

/-- Each loop step advances the frame index by one. -/
theorem seg_step_fst (mf fl : ℕ) (s : ℕ × Bool × ℕ × List (ℕ × ℕ)) (a : Bool) :
    (seg_step mf fl s a).1 = s.1 + 1 := by
  obtain ⟨i, it, st, segs⟩ := s
  cases a <;> cases it <;> simp [seg_step]

/-- After the whole scan the frame index is the mask length. -/
theorem seg_foldl_fst (mf fl : ℕ) (mask : List Bool) :
    ∀ s : ℕ × Bool × ℕ × List (ℕ × ℕ),
      (mask.foldl (seg_step mf fl) s).1 = s.1 + mask.length := by
  induction mask with
  | nil => intro s; simp
  | cons a mask ih =>
    intro s
    rw [List.foldl_cons, ih, seg_step_fst]
    simp
    omega

/-- Scanning an inactive frame always leaves the run flag cleared. -/
theorem seg_step_false_not_in_tone (mf fl : ℕ) (s : ℕ × Bool × ℕ × List (ℕ × ℕ)) :
    (seg_step mf fl s false).2.1 = false := by
  obtain ⟨i, it, st, segs⟩ := s
  cases it <;> simp [seg_step]

/-- A prefix that is empty or ends with an inactive frame leaves the
run flag cleared. -/
theorem seg_foldl_end_not_in_tone (mf fl : ℕ) {m : List Bool}
    {s : ℕ × Bool × ℕ × List (ℕ × ℕ)} (hs : s.2.1 = false)
    (hm : m = [] ∨ ∃ m2, m = m2 ++ [false]) :
    (m.foldl (seg_step mf fl) s).2.1 = false := by
  rcases hm with rfl | ⟨m2, rfl⟩
  · simpa using hs
  · rw [List.foldl_append]
    simp only [List.foldl_cons, List.foldl_nil]
    exact seg_step_false_not_in_tone mf fl _

/-- Scanning active frames while inside a run only advances the index. -/
theorem seg_foldl_replicate_true_in (mf fl : ℕ) (k : ℕ) :
    ∀ (i st : ℕ) (segs : List (ℕ × ℕ)),
      (List.replicate k true).foldl (seg_step mf fl) (i, true, st, segs)
        = (i + k, true, st, segs) := by
  induction k with
  | zero => intro i st segs; simp
  | succ j ih =>
    intro i st segs
    rw [List.replicate_succ, List.foldl_cons]
    have hstep : seg_step mf fl (i, true, st, segs) true = (i + 1, true, st, segs) := by
      simp [seg_step]
    rw [hstep, ih]
    congr 1
    omega

/-- Entering a nonempty run of active frames records the entry index as
the run start and carries it to the end of the run. -/
theorem seg_foldl_replicate_true (mf fl : ℕ) {k : ℕ} (hk : 0 < k) :
    ∀ (i st : ℕ) (segs : List (ℕ × ℕ)),
      (List.replicate k true).foldl (seg_step mf fl) (i, false, st, segs)
        = (i + k, true, i, segs) := by
  intro i st segs
  obtain ⟨j, rfl⟩ : ∃ j, k = j + 1 := ⟨k - 1, by omega⟩
  rw [List.replicate_succ, List.foldl_cons]
  have hstep : seg_step mf fl (i, false, st, segs) true = (i + 1, true, i, segs) := by
    simp [seg_step]
  rw [hstep, seg_foldl_replicate_true_in]
  congr 1
  omega

/-- One loop step preserves the segment invariant. -/
theorem seg_step_preserves {mf fl : ℕ} (hfl : 0 < fl)
    {s : ℕ × Bool × ℕ × List (ℕ × ℕ)} (h : seg_inv mf fl s) (a : Bool) :
    seg_inv mf fl (seg_step mf fl s a) := by
  obtain ⟨i, it, st, segs⟩ := s
  obtain ⟨h1, h2, h3⟩ := h
  dsimp only at h1 h2 h3
  have hmono : ∀ p : ℕ × ℕ, p ∈ segs →
      p.1 + mf * fl ≤ p.2 ∧ p.1 + fl ≤ p.2 ∧ p.2 ≤ (i + 1) * fl := by
    intro p hp
    obtain ⟨ha, hb, hc⟩ := h2 p hp
    exact ⟨ha, hb, le_trans hc (Nat.mul_le_mul_right _ (Nat.le_succ i))⟩
  cases a <;> cases it
  · -- inactive frame, not in a run: nothing changes
    have hstep : seg_step mf fl (i, false, st, segs) false = (i + 1, false, st, segs) := by
      simp [seg_step]
    rw [hstep]
    exact ⟨by simp, hmono, h3⟩
  · -- inactive frame while in a run: possibly emit a segment
    have hstep : seg_step mf fl (i, true, st, segs) false
        = (i + 1, false, st,
            if mf ≤ i - st then segs ++ [(st * fl, i * fl)] else segs) := by
      simp [seg_step]
    rw [hstep]
    obtain ⟨hsti, hend⟩ := h1 rfl
    by_cases hcond : mf ≤ i - st
    · rw [if_pos hcond]
      refine ⟨by simp, ?_, ?_⟩
      · intro p hp
        rcases List.mem_append.mp hp with hp2 | hp2
        · exact hmono p hp2
        · rw [List.mem_singleton.mp hp2]
          have hsum : st + mf ≤ i := by omega
          have hsucc : st + 1 ≤ i := by omega
          refine ⟨?_, ?_, Nat.mul_le_mul_right _ (Nat.le_succ i)⟩
          · have := Nat.mul_le_mul_right fl hsum
            rwa [Nat.add_mul] at this
          · have := Nat.mul_le_mul_right fl hsucc
            rwa [Nat.add_mul, Nat.one_mul] at this
      · rw [List.pairwise_append]
        refine ⟨h3, List.pairwise_singleton _ _, ?_⟩
        intro p hp q hq
        rw [List.mem_singleton.mp hq]
        have he := hend p hp
        have hlt : p.1 < p.2 := by
          have := (h2 p hp).2.1
          omega
        exact ⟨lt_of_lt_of_le hlt he, he⟩
    · rw [if_neg hcond]
      exact ⟨by simp, hmono, h3⟩
  · -- active frame, not yet in a run: record the start
    have hstep : seg_step mf fl (i, false, st, segs) true = (i + 1, true, i, segs) := by
      simp [seg_step]
    rw [hstep]
    refine ⟨?_, hmono, h3⟩
    intro _
    refine ⟨Nat.lt_succ_self i, ?_⟩
    intro p hp
    exact (h2 p hp).2.2
  · -- active frame while in a run: nothing changes
    have hstep : seg_step mf fl (i, true, st, segs) true = (i + 1, true, st, segs) := by
      simp [seg_step]
    rw [hstep]
    refine ⟨?_, hmono, h3⟩
    intro _
    obtain ⟨hsti, hend⟩ := h1 rfl
    exact ⟨Nat.lt_succ_of_lt hsti, hend⟩

/-- The whole scan preserves the segment invariant. -/
theorem seg_foldl_preserves {mf fl : ℕ} (hfl : 0 < fl) (mask : List Bool) :
    ∀ s : ℕ × Bool × ℕ × List (ℕ × ℕ), seg_inv mf fl s →
      seg_inv mf fl (mask.foldl (seg_step mf fl) s) := by
  induction mask with
  | nil => intro s hs; exact hs
  | cons a mask ih =>
    intro s hs
    rw [List.foldl_cons]
    exact ih _ (seg_step_preserves hfl hs a)

/-- C5 (amended): the segments produced by `find_tone_segments` are
pairwise disjoint half-open sample intervals with strictly increasing
starts; every emitted segment spans at least
`min_tone_frames = int(0.1 * sample_rate / frame_length)` frames (floor,
i.e. `sample_rate / (10 * frame_length)`), is nonempty, and ends within
the signal; and a qualifying maximal run of active frames that extends
to the end of the mask is still emitted as a segment. -/
theorem find_tone_segments_spec (mask : List Bool) (fl sr : ℕ) (hfl : 0 < fl) :
    (find_tone_segments mask fl sr).Pairwise (fun p q => p.1 < q.1 ∧ p.2 ≤ q.1)
    ∧ (∀ p ∈ find_tone_segments mask fl sr,
        p.1 + (sr / (10 * fl)) * fl ≤ p.2 ∧ p.1 < p.2 ∧ p.2 ≤ mask.length * fl)
    ∧ ∀ m k, mask = m ++ List.replicate k true →
        (m = [] ∨ ∃ m2, m = m2 ++ [false]) → sr / (10 * fl) ≤ k → 0 < k →
        (m.length * fl, mask.length * fl) ∈ find_tone_segments mask fl sr := by
  have hinv0 : seg_inv (sr / (10 * fl)) fl (0, false, 0, []) := ⟨by simp, by simp, by simp⟩
  rcases hres : mask.foldl (seg_step (sr / (10 * fl)) fl) (0, false, 0, [])
    with ⟨fi, fit, fst2, fsegs⟩
  have hinv : seg_inv (sr / (10 * fl)) fl (fi, fit, fst2, fsegs) := by
    rw [← hres]
    exact seg_foldl_preserves hfl mask _ hinv0
  obtain ⟨hI1, hI2, hI3⟩ := hinv
  dsimp only at hI1 hI2 hI3
  have hfi : fi = mask.length := by
    have := seg_foldl_fst (sr / (10 * fl)) fl mask (0, false, 0, [])
    rw [hres] at this
    simpa using this
  have hout : find_tone_segments mask fl sr
      = if fit && decide (sr / (10 * fl) ≤ mask.length - fst2) then
          fsegs ++ [(fst2 * fl, mask.length * fl)]
        else fsegs := by
    simp only [find_tone_segments]
    rw [hres]
  have hbase : ∀ p ∈ fsegs,
      p.1 + (sr / (10 * fl)) * fl ≤ p.2 ∧ p.1 < p.2 ∧ p.2 ≤ mask.length * fl := by
    intro p hp
    obtain ⟨ha, hb, hc⟩ := hI2 p hp
    rw [hfi] at hc
    exact ⟨ha, by omega, hc⟩
  refine ⟨?_, ?_, ?_⟩
  · -- pairwise ordering
    rw [hout]
    by_cases hcase : fit = true ∧ sr / (10 * fl) ≤ mask.length - fst2
    · rw [hcase.1, if_pos (by simp [hcase.2])]
      rw [List.pairwise_append]
      refine ⟨hI3, List.pairwise_singleton _ _, ?_⟩
      intro p hp q hq
      rw [List.mem_singleton.mp hq]
      obtain ⟨hstlt, hend⟩ := hI1 hcase.1
      have he := hend p hp
      have hlt : p.1 < p.2 := by
        have := (hI2 p hp).2.1
        omega
      exact ⟨lt_of_lt_of_le hlt he, he⟩
    · have hcond : (fit && decide (sr / (10 * fl) ≤ mask.length - fst2)) = false := by
        cases fit
        · simp
        · simp only [Bool.true_and, decide_eq_false_iff_not]
          intro hle
          exact hcase ⟨rfl, hle⟩
      rw [hcond, if_neg (by simp)]
      exact hI3
  · -- spans and bounds
    rw [hout]
    by_cases hcase : fit = true ∧ sr / (10 * fl) ≤ mask.length - fst2
    · rw [hcase.1, if_pos (by simp [hcase.2])]
      intro p hp
      rcases List.mem_append.mp hp with hp2 | hp2
      · exact hbase p hp2
      · rw [List.mem_singleton.mp hp2]
        obtain ⟨hstlt, hend⟩ := hI1 hcase.1
        rw [hfi] at hstlt
        have hsum : fst2 + sr / (10 * fl) ≤ mask.length := by
          have := hcase.2
          omega
        have hsucc : fst2 + 1 ≤ mask.length := by omega
        refine ⟨?_, ?_, le_rfl⟩
        · have := Nat.mul_le_mul_right fl hsum
          rwa [Nat.add_mul] at this
        · have := Nat.mul_le_mul_right fl hsucc
          rw [Nat.add_mul, Nat.one_mul] at this
          omega
    · have hcond : (fit && decide (sr / (10 * fl) ≤ mask.length - fst2)) = false := by
        cases fit
        · simp
        · simp only [Bool.true_and, decide_eq_false_iff_not]
          intro hle
          exact hcase ⟨rfl, hle⟩
      rw [hcond, if_neg (by simp)]
      exact hbase
  · -- a qualifying run reaching the end of the signal is emitted
    intro m k hmk hm hk hkpos
    have hnotin : (m.foldl (seg_step (sr / (10 * fl)) fl) (0, false, 0, [])).2.1 = false :=
      seg_foldl_end_not_in_tone _ _ rfl hm
    rcases hm1 : m.foldl (seg_step (sr / (10 * fl)) fl) (0, false, 0, [])
      with ⟨i1, it1, st1, segs1⟩
    rw [hm1] at hnotin
    dsimp only at hnotin
    have hi1 : i1 = m.length := by
      have := seg_foldl_fst (sr / (10 * fl)) fl m (0, false, 0, [])
      rw [hm1] at this
      simpa using this
    have hfold : mask.foldl (seg_step (sr / (10 * fl)) fl) (0, false, 0, [])
        = (m.length + k, true, m.length, segs1) := by
      rw [hmk, List.foldl_append, hm1, hnotin, hi1]
      exact seg_foldl_replicate_true _ _ hkpos m.length st1 segs1
    have hmask_len : mask.length = m.length + k := by
      rw [hmk]
      simp
    have hsub : mask.length - m.length = k := by omega
    simp only [find_tone_segments]
    rw [hfold]
    simp only [hsub, Bool.true_and]
    rw [decide_eq_true hk, if_pos (by trivial)]
    exact List.mem_append_right _ (List.mem_singleton.mpr rfl)

/-- Witness for C5 on a ten-frame active run at `sr = 100`, `fl = 1`,
where the 100 ms floor is exactly ten frames and the run reaches the end
of the signal. -/
theorem find_tone_segments_spec_witness :
    ((0 : ℕ) * 1, (List.replicate 10 true).length * 1)
      ∈ find_tone_segments (List.replicate 10 true) 1 100 := by
  have h := (find_tone_segments_spec (List.replicate 10 true) 1 100 (by decide)).2.2
    [] 10 (by simp) (Or.inl rfl) (by decide) (by decide)
  simpa using h

/-- Counterexample for C5: at `sample_rate = 350`, `frame_length = 3`
the code truncates `0.1 * 350 / 3` to `11` while the claim rounds it to
`12`; an eleven-frame run is emitted as a segment spanning fewer frames
than the claimed `round`-based floor. -/
theorem find_tone_segments_counterexample :
    find_tone_segments (List.replicate 11 true ++ [false]) 3 350 = [(0, 33)]
    ∧ ((33 - 0) / 3 : ℤ) < round ((1 / 10 : ℚ) * 350 / 3) := by
  constructor
  · decide
  · norm_num [round_eq]

/-- C6: whenever segmentation yields fewer than two qualifying segments,
`detect_two_tone_sequence` returns exactly `(None, None, 0.0)` (a normal
return, not an error), and the caller of `decode_audio` then reports no
match for every catalog and tolerance, never consulting the entries. -/
theorem detect_no_pair (samples : List ℝ) (sr : ℕ)
    (h : (find_tone_segments (tone_active_mask (normalize_samples samples) sr)
        (sr / 100) sr).length < 2) :
    detect_two_tone_sequence samples sr = (none, none, 0)
    ∧ ∀ (tol : ℚ) (entries : List ToneEntry),
        decode_matched_entry tol samples sr entries = none := by
  have hdet : detect_two_tone_sequence samples sr = (none, none, 0) := by
    rcases hsegs : find_tone_segments (tone_active_mask (normalize_samples samples) sr)
        (sr / 100) sr with _ | ⟨a, _ | ⟨b, rest⟩⟩
    · simp only [detect_two_tone_sequence]
      rw [hsegs]
    · simp only [detect_two_tone_sequence]
      rw [hsegs]
    · rw [hsegs] at h
      simp at h
      omega
  refine ⟨hdet, fun tol entries => ?_⟩
  simp only [decode_matched_entry]
  rw [hdet]

/-- Witness for C6 on the empty sample list, which yields no frames at
all and hence zero segments. -/
theorem detect_no_pair_witness :
    detect_two_tone_sequence [] 100 = (none, none, 0)
    ∧ decode_matched_entry 2 [] 100 [] = none :=
  ⟨(detect_no_pair [] 100 (by decide)).1,
   (detect_no_pair [] 100 (by decide)).2 2 []⟩

/-- Dividing members of an all-zero sample list leaves them zero, so the
unconditional normalization keeps a silent clip silent in this exact
model (NumPy instead produces NaN samples there; either way no frame
compares above the threshold). -/
theorem normalize_silent {samples : List ℝ} (h : ∀ x ∈ samples, x = 0) :
    ∀ y ∈ normalize_samples samples, y = 0 := by
  intro y hy
  obtain ⟨x, hx, rfl⟩ := List.mem_map.mp hy
  rw [h x hx, zero_div]

/-- Reading any index of an all-zero list with default `0` gives `0`. -/
theorem getD_all_zero {l : List ℝ} (h : ∀ x ∈ l, x = 0) (n : ℕ) : l.getD n 0 = 0 := by
  by_cases hn : n < l.length
  · rw [List.getD_eq_getElem _ _ hn]
    exact h _ (List.getElem_mem hn)
  · rw [List.getD_eq_default _ _ (le_of_not_lt hn)]

/-- Frame energies of an all-zero signal are all zero. -/
theorem energy_frames_all_zero {s : List ℝ} (h : ∀ x ∈ s, x = 0) (fl : ℕ) :
    ∀ e ∈ energy_frames s fl, e = 0 := by
  intro e he
  obtain ⟨i, _, rfl⟩ := List.mem_map.mp he
  apply List.sum_eq_zero
  intro y hy
  obtain ⟨x, hx, rfl⟩ := List.mem_map.mp hy
  rw [h x (List.mem_of_mem_drop (List.mem_of_mem_take hx))]
  ring

/-- Zero-padded reads of an all-zero list are zero. -/
theorem padGet_all_zero {l : List ℝ} (h : ∀ x ∈ l, x = 0) (j : ℤ) : padGet l j = 0 := by
  rw [padGet]
  split
  · exact getD_all_zero h _
  · rfl

/-- Insertion keeps exactly the inserted element and the old members. -/
theorem mem_insert_sorted {x y : ℝ} : ∀ {l : List ℝ}, y ∈ insert_sorted x l → y = x ∨ y ∈ l := by
  intro l
  induction l with
  | nil =>
    intro hy
    rw [insert_sorted] at hy
    exact Or.inl (List.mem_singleton.mp hy)
  | cons z zs ih =>
    intro hy
    rw [insert_sorted] at hy
    split at hy
    · rcases List.mem_cons.mp hy with rfl | hy2
      · exact Or.inl rfl
      · exact Or.inr hy2
    · rcases List.mem_cons.mp hy with rfl | hy2
      · exact Or.inr (by simp)
      · rcases ih hy2 with rfl | hy3
        · exact Or.inl rfl
        · exact Or.inr (by simp [hy3])

/-- Sorting a window keeps its members. -/
theorem mem_sort_list {y : ℝ} : ∀ {l : List ℝ}, y ∈ sort_list l → y ∈ l := by
  intro l
  induction l with
  | nil =>
    intro hy
    rw [sort_list] at hy
    simp at hy
  | cons z zs ih =>
    intro hy
    rw [sort_list, List.foldr_cons] at hy
    rcases mem_insert_sorted hy with rfl | hy2
    · simp
    · exact List.mem_cons_of_mem _ (ih hy2)

/-- The median of an all-zero window is zero. -/
theorem median_of_all_zero {w : List ℝ} (h : ∀ x ∈ w, x = 0) : median_of w = 0 := by
  rw [median_of]
  apply getD_all_zero
  intro x hx
  exact h x (mem_sort_list hx)

/-- Median filtering an all-zero energy sequence gives all zeros. -/
theorem medfilt5_all_zero {l : List ℝ} (h : ∀ x ∈ l, x = 0) :
    ∀ y ∈ medfilt5 l, y = 0 := by
  intro y hy
  rw [medfilt5] at hy
  obtain ⟨i, _, rfl⟩ := List.mem_map.mp hy
  apply median_of_all_zero
  intro x hx
  simp only [List.mem_cons, List.not_mem_nil, or_false] at hx
  rcases hx with rfl | rfl | rfl | rfl | rfl <;> exact padGet_all_zero h _

/-- On an all-zero normalized signal every activity flag is false: the
smoothed energies are all zero, the threshold is zero, and the strict
comparison fails everywhere. -/
theorem tone_active_mask_silent {s : List ℝ} (h : ∀ x ∈ s, x = 0) (sr : ℕ) :
    ∀ b ∈ tone_active_mask s sr, b = false := by
  intro b hb
  simp only [tone_active_mask] at hb
  obtain ⟨e, he, rfl⟩ := List.mem_map.mp hb
  have hsm : ∀ y ∈ medfilt5 (energy_frames s (sr / 100)), y = 0 :=
    medfilt5_all_zero (energy_frames_all_zero h (sr / 100))
  have he0 : e = 0 := hsm e he
  apply decide_eq_false
  rw [he0, listMean_all_zero hsm, listStd_all_zero hsm]
  norm_num

/-- Scanning an all-false mask emits nothing and only advances the
index. -/
theorem seg_foldl_all_false {mf fl : ℕ} :
    ∀ {mask : List Bool}, (∀ b ∈ mask, b = false) →
      ∀ (i st : ℕ) (segs : List (ℕ × ℕ)),
        mask.foldl (seg_step mf fl) (i, false, st, segs) = (i + mask.length, false, st, segs) := by
  intro mask
  induction mask with
  | nil => intro _ i st segs; simp
  | cons a mask ih =>
    intro hall i st segs
    have ha : a = false := hall a (by simp)
    subst ha
    rw [List.foldl_cons]
    have hstep : seg_step mf fl (i, false, st, segs) false = (i + 1, false, st, segs) := by
      simp [seg_step]
    rw [hstep, ih (fun b hb => hall b (by simp [hb]))]
    rw [List.length_cons]
    congr 1
    omega

/-- An all-false activity mask produces no segments. -/
theorem find_tone_segments_all_false {mask : List Bool} (h : ∀ b ∈ mask, b = false)
    (fl sr : ℕ) : find_tone_segments mask fl sr = [] := by
  simp only [find_tone_segments]
  rw [seg_foldl_all_false h 0 0 []]
  simp

/-- A silent clip flows through the unconditional normalization and the
all-false mask to the ordinary no-detection return. -/
theorem detect_silent_eq {samples : List ℝ} (h : ∀ x ∈ samples, x = 0) (sr : ℕ) :
    detect_two_tone_sequence samples sr = (none, none, 0) := by
  have hmask := tone_active_mask_silent (normalize_silent h) sr
  have hsegs := find_tone_segments_all_false hmask (sr / 100) sr
  simp only [detect_two_tone_sequence]
  rw [hsegs]

/-- C1 (code bug): on the concrete silent waveform of four zero samples
the maximum absolute amplitude is zero, the code still performs the
normalization division by that zero maximum (there is no degenerate
check and no error type anywhere in the engine), and
`detect_two_tone_sequence` returns the ordinary `(None, None, 0.0)`
result instead of raising a distinct degenerate-audio error. -/
theorem detect_silent_behavior :
    maxAbs (List.replicate 4 (0 : ℝ)) = 0
    ∧ normalize_samples (List.replicate 4 (0 : ℝ))
        = (List.replicate 4 (0 : ℝ)).map (fun x => x / 0)
    ∧ detect_two_tone_sequence (List.replicate 4 (0 : ℝ)) 100 = (none, none, 0) := by
  have hz : ∀ x ∈ List.replicate 4 (0 : ℝ), x = 0 := fun x hx => List.eq_of_mem_replicate hx
  have hmax : maxAbs (List.replicate 4 (0 : ℝ)) = 0 := by
    simp [maxAbs, List.replicate_succ]
  refine ⟨hmax, ?_, detect_silent_eq hz 100⟩
  rw [normalize_samples, hmax]
